import Mathlib

/-!
Verification of the dataloader batching library (src/main.go).

The Go code is shallowly embedded as follows.

* A Go `map[K]V` is modelled as an association list `List (K × V)` with
  distinct keys kept in insertion order; `mapInsert` is `m[k] = v`,
  `mapFind` is the comma-ok read, `mapRead` is the plain read, which
  yields the zero value (`Inhabited.default`) on a missing key.
* The Go set `map[K]bool` holding the pending keys of a batch is
  modelled as a duplicate-free `List K` in insertion order (`keyInsert`
  is `bat.keys[key] = true`).  Go map iteration order is arbitrary; the
  model fixes insertion order, and every proved property (counts and
  membership over the snapshot) is invariant under reordering.
* A fetch function `func([]K) (map[K]V, error)` is modelled as
  `List K → Except E (List (K × V))`.
* The synchronisation devices (mutexes, the one-shot channel `ch`, the
  waitgroup) carry no data; the order in which the select loop of `run`
  receives the chunk outcomes is made explicit as a `trace` argument,
  constrained to be a permutation of the dispatched outcomes.
-/

namespace Dataloader

/-- Model of the Go map write `m[k] = v`: replace the entry when the key
is present, append it when absent. -/
def mapInsert {K V : Type} [DecidableEq K] : List (K × V) → K → V → List (K × V)
  | [], k, v => [(k, v)]
  | (k2, v2) :: rest, k, v =>
      if k2 = k then (k, v) :: rest else (k2, v2) :: mapInsert rest k v

/-- Model of the Go comma-ok map read: `none` when the key is absent. -/
def mapFind {K V : Type} [DecidableEq K] : List (K × V) → K → Option V
  | [], _ => none
  | (k2, v2) :: rest, k => if k2 = k then some v2 else mapFind rest k

/-- Model of the plain Go map read `m[k]`: an absent key yields the zero
value of V, modelled by Inhabited.default. -/
def mapRead {K V : Type} [DecidableEq K] [Inhabited V] (m : List (K × V)) (k : K) : V :=
  (mapFind m k).getD default

/-- Model of the merge loop `for key := range results
\x7b bat.results[key] = results[key] \x7d` (src/main.go lines 238-241):
write every entry of the second map into the first. -/
def mapMerge {K V : Type} [DecidableEq K] (m other : List (K × V)) : List (K × V) :=
  other.foldl (fun acc kv => mapInsert acc kv.1 kv.2) m

/-- Model of `bat.keys[key] = true` on the Go set `map[K]bool`
(src/main.go line 171): insert the key if it is not already present. -/
def keyInsert {K : Type} [DecidableEq K] (s : List K) (k : K) : List K :=
  if k ∈ s then s else s ++ [k]

/-- Iteration-counted model of the loop in `chunk` (src/main.go lines
255-257): while `size < len(items)`, slice off the first `size` items as
one chunk.  One unit of fuel is spent per loop iteration; when the fuel
runs out the remainder is returned as the final chunk.  A terminating run
of the Go loop shortens `items` by `size ≥ 1` each iteration, so
`items.length` fuel always suffices; the extra guard `0 < size` covers
exactly the case in which the Go loop would spin forever (captured
faithfully by `chunkFuel` below). -/
def chunkGo {T : Type} : Nat → List T → Nat → List (List T)
  | 0, items, _ => [items]
  | fuel + 1, items, size =>
      if 0 < size ∧ size < items.length then
        items.take size :: chunkGo fuel (items.drop size) size
      else
        [items]

/-- Model of `chunk` (src/main.go lines 253-259), total via sufficient
fuel.  `chunk_eq` below restates it as the literal loop recursion. -/
def chunk {T : Type} (items : List T) (size : Nat) : List (List T) :=
  chunkGo items.length items size

/-- Exact model of the loop in the Go `chunk`, fuel-indexed with no
positivity guard: `none` means the loop has not finished within the given
number of iterations.  The Go loop terminates on an input if and only if
some finite fuel yields `some`. -/
def chunkFuel {T : Type} : Nat → List T → Nat → Option (List (List T))
  | 0, _, _ => none
  | fuel + 1, items, size =>
      if size < items.length then
        (chunkFuel fuel (items.drop size) size).map (fun cs => items.take size :: cs)
      else
        some [items]

/-- Model of the `batch` struct (src/main.go lines 102-111).  The mutex
and the one-shot channel `ch` carry no data and are not modelled; `keys`
models the Go set `map[K]bool` as a duplicate-free list. -/
structure Batch (K V E : Type) where
  batchSize : Nat
  fn : List K → Except E (List (K × V))
  err : Option E := none
  keys : List K := []
  results : List (K × V) := []

/-- Model of the `Loader` struct (src/main.go lines 123-130).  `Delay` is
a `time.Duration` in nanoseconds. -/
structure Loader (K V E : Type) where
  BatchSize : Nat
  Delay : Nat
  fn : List K → Except E (List (K × V))
  currentBatch : Option (Batch K V E) := none

/-- Constant `defaultBatchSize` (src/main.go line 96). -/
def defaultBatchSize : Nat := 1000

/-- Constant `defaultDelay = 5 * time.Millisecond` in nanoseconds
(src/main.go line 97). -/
def defaultDelay : Nat := 5 * 1000000

/-- Model of `New` (src/main.go lines 133-139): return a fresh Loader
carrying the default configuration and the supplied fetch function,
paired with the error result, which is the literal `nil`. -/
def New {K V E : Type} (fn : List K → Except E (List (K × V))) :
    Loader K V E × Option E :=
  ({ BatchSize := defaultBatchSize, Delay := defaultDelay, fn := fn,
     currentBatch := none }, none)

/-- Model of the section of `LoadMany` run under the Loader mutex
(src/main.go lines 154-167): when no batch is current, create one —
capturing the Loader's current `BatchSize` and `fn` into the batch — make
it current and spawn `run`; hand the caller the batch it attached to.
The `Bool` records whether this call created the batch.  This section of
the Go code never inspects the caller's keys. -/
def loadManyAcquire {K V E : Type} (loader : Loader K V E) :
    Loader K V E × Batch K V E × Bool :=
  match loader.currentBatch with
  | some bat => (loader, bat, false)
  | none =>
      let bat : Batch K V E := { batchSize := loader.BatchSize, fn := loader.fn }
      ({ loader with currentBatch := some bat }, bat, true)

/-- Model of the key-insertion section of `LoadMany` (src/main.go lines
169-175): insert each of the caller's keys into the batch's pending
set. -/
def addKeys {K V E : Type} [DecidableEq K] (bat : Batch K V E) (ks : List K) :
    Batch K V E :=
  { bat with keys := ks.foldl keyInsert bat.keys }

/-- Duration slept by `run` (src/main.go line 194):
`time.Sleep(loader.Delay)` reads the `Delay` field of the shared Loader —
`run` holds the `*Loader` receiver, not a copy — at the moment the
goroutine executes the statement.  The `batch` struct stores no delay
field, so no creation-time delay exists to be read. -/
def runSleepDuration {K V E : Type} (loaderAtRunTime : Loader K V E) : Nat :=
  loaderAtRunTime.Delay

/-- Outcomes of the chunk fetch goroutines spawned by `run` (src/main.go
lines 210 and 216-229): the snapshot of the pending keys is chunked by
the batch's captured `batchSize`, and `bat.fn` is invoked once per
chunk. -/
def dispatchOutcomes {K V E : Type} (bat : Batch K V E) :
    List (Except E (List (K × V))) :=
  (chunk bat.keys bat.batchSize).map bat.fn

/-- Number of fetch invocations `run` performs for a batch: one goroutine
per chunk, each calling `bat.fn` exactly once (src/main.go lines
216-229). -/
def fetchInvocations {K V E : Type} (bat : Batch K V E) : Nat :=
  (chunk bat.keys bat.batchSize).length

/-- Model of the select loop of `run` (src/main.go lines 235-248),
consuming the chunk outcomes in the order they are offered: merge each
successful result into the accumulated map, stop at the first error
(recording it), or stop when every outcome has been consumed (only then
can `wgChan` be closed, because each goroutine's send precedes its
`wg.Done()`). -/
def runLoop {K V E : Type} [DecidableEq K] :
    List (Except E (List (K × V))) → List (K × V) → List (K × V) × Option E
  | [], acc => (acc, none)
  | Except.ok m :: rest, acc => runLoop rest (mapMerge acc m)
  | Except.error e :: _, acc => (acc, some e)

/-- Number of outcomes the select loop actually receives from the chunk
goroutines before it exits. -/
def consumedCount {K V E : Type} : List (Except E (List (K × V))) → Nat
  | [] => 0
  | Except.ok _ :: rest => consumedCount rest + 1
  | Except.error _ :: _ => 1

/-- Chunk goroutines left blocked forever once the select loop has
exited: `errChan` and `resultChan` are unbuffered and nothing receives
from them after the loop breaks (src/main.go lines 224, 227 and
235-248), so a goroutine whose send was not consumed never returns. -/
def blockedSenders {K V E : Type} (trace : List (Except E (List (K × V)))) : Nat :=
  trace.length - consumedCount trace

/-- Model of `run`'s resolution of a batch (src/main.go lines 201-251),
parameterised by the order `trace` in which the select loop receives the
chunk outcomes. -/
def resolve {K V E : Type} [DecidableEq K] (bat : Batch K V E)
    (trace : List (Except E (List (K × V)))) : Batch K V E :=
  { bat with results := (runLoop trace bat.results).1,
             err := (runLoop trace bat.results).2 }

/-- Resolution with the chunk outcomes received in dispatch order. -/
def resolveInOrder {K V E : Type} [DecidableEq K] (bat : Batch K V E) : Batch K V E :=
  resolve bat (dispatchOutcomes bat)

/-- Model of the section of `LoadMany` after the completion signal fires
(src/main.go lines 179-190): on a batch error, return a freshly made
empty map together with that error; otherwise fill a fresh map with
`results[key] = bat.results[key]` for each requested key, reading
`bat.results` with Go zero-value semantics. -/
def projectResults {K V E : Type} [DecidableEq K] [Inhabited V]
    (bat : Batch K V E) (ks : List K) : List (K × V) × Option E :=
  match bat.err with
  | some e => ([], some e)
  | none => (ks.foldl (fun acc k => mapInsert acc k (mapRead bat.results k)) [], none)

/-- Window observed by a solo caller of `LoadMany`: the batch acquired
(and created, when none was current), holding exactly the caller's keys,
resolved with the chunk outcomes in dispatch order. -/
def soloWindow {K V E : Type} [DecidableEq K] (loader : Loader K V E)
    (ks : List K) : Batch K V E :=
  resolveInOrder (addKeys (loadManyAcquire loader).2.1 ks)

/-- End-to-end model of `LoadMany` for a solo caller (src/main.go lines
153-191). -/
def loadManySolo {K V E : Type} [DecidableEq K] [Inhabited V]
    (loader : Loader K V E) (ks : List K) : List (K × V) × Option E :=
  projectResults (soloWindow loader ks) ks

/-- Model of the tail of `Load` (src/main.go lines 142-150) against a
resolved batch: call `LoadMany` with the single key; on an error return
the zero value with that error, otherwise read the key from the returned
map. -/
def loadFromBatch {K V E : Type} [DecidableEq K] [Inhabited V]
    (bat : Batch K V E) (key : K) : V × Option E :=
  match projectResults bat [key] with
  | (_, some e) => (default, some e)
  | (results, none) => (mapRead results key, none)

/-- End-to-end model of `Load` for a solo caller (src/main.go lines
142-150). -/
def load {K V E : Type} [DecidableEq K] [Inhabited V]
    (loader : Loader K V E) (key : K) : V × Option E :=
  loadFromBatch (soloWindow loader [key]) key

/-! Helper lemmas about the fueled chunk model. -/

theorem chunkGo_fuel_eq {T : Type} :
    ∀ (fuel fuel2 : Nat) (items : List T) (size : Nat),
      items.length ≤ fuel → items.length ≤ fuel2 →
      chunkGo fuel items size = chunkGo fuel2 items size := by
  intro fuel
  induction fuel with
  | zero =>
      intro fuel2 items size h _
      have hitems : items = [] := List.length_eq_zero.mp (Nat.le_zero.mp h)
      subst hitems
      cases fuel2 with
      | zero => rfl
      | succ f2 => simp [chunkGo]
  | succ f ih =>
      intro fuel2 items size h h2
      cases fuel2 with
      | zero =>
          have hitems : items = [] := List.length_eq_zero.mp (Nat.le_zero.mp h2)
          subst hitems
          simp [chunkGo]
      | succ f2 =>
          simp only [chunkGo]
          by_cases hc : 0 < size ∧ size < items.length
          · rw [if_pos hc, if_pos hc]
            have hlen : (items.drop size).length ≤ f := by
              simp only [List.length_drop]; omega
            have hlen2 : (items.drop size).length ≤ f2 := by
              simp only [List.length_drop]; omega
            rw [ih f2 (items.drop size) size hlen hlen2]
          · rw [if_neg hc, if_neg hc]

theorem chunk_eq {T : Type} (items : List T) (size : Nat) :
    chunk items size =
      if 0 < size ∧ size < items.length then
        items.take size :: chunk (items.drop size) size
      else [items] := by
  cases items with
  | nil => simp [chunk, chunkGo]
  | cons a t =>
      show chunkGo (a :: t).length (a :: t) size = _
      simp only [List.length_cons, chunkGo]
      by_cases hc : 0 < size ∧ size < t.length + 1
      · rw [if_pos hc, if_pos hc]
        have hlen : ((a :: t).drop size).length ≤ t.length := by
          simp only [List.length_drop, List.length_cons]; omega
        rw [chunkGo_fuel_eq t.length ((a :: t).drop size).length _ size hlen (Nat.le_refl _)]
        rfl
      · rw [if_neg hc, if_neg hc]

theorem chunk_flatten_eq {T : Type} (items : List T) (size : Nat) (h : 0 < size) :
    (chunk items size).flatten = items := by
  rw [chunk_eq]
  by_cases hc : 0 < size ∧ size < items.length
  · rw [if_pos hc, List.flatten_cons, chunk_flatten_eq (items.drop size) size h]
    exact List.take_append_drop size items
  · rw [if_neg hc]
    simp
termination_by items.length
decreasing_by simp only [List.length_drop]; omega

theorem chunk_mem_length_le {T : Type} (items : List T) (size : Nat) (h : 0 < size) :
    ∀ c ∈ chunk items size, c.length ≤ size := by
  rw [chunk_eq]
  by_cases hc : 0 < size ∧ size < items.length
  · rw [if_pos hc]
    intro c hcmem
    rcases List.mem_cons.mp hcmem with h1 | h1
    · subst h1
      simp only [List.length_take]
      omega
    · exact chunk_mem_length_le (items.drop size) size h c h1
  · rw [if_neg hc]
    intro c hcmem
    rcases List.mem_singleton.mp hcmem with rfl
    omega
termination_by items.length
decreasing_by simp only [List.length_drop]; omega

theorem chunk_mem_ne_nil {T : Type} (items : List T) (size : Nat) (h : 0 < size)
    (hne : items ≠ []) : ∀ c ∈ chunk items size, c ≠ [] := by
  rw [chunk_eq]
  by_cases hc : 0 < size ∧ size < items.length
  · rw [if_pos hc]
    intro c hcmem
    rcases List.mem_cons.mp hcmem with h1 | h1
    · subst h1
      have : (items.take size).length = size := by
        simp only [List.length_take]; omega
      intro hnil
      rw [hnil] at this
      simp at this
      omega
    · refine chunk_mem_ne_nil (items.drop size) size h ?_ c h1
      intro hnil
      have := congrArg List.length hnil
      simp only [List.length_drop, List.length_nil] at this
      omega
  · rw [if_neg hc]
    intro c hcmem
    rcases List.mem_singleton.mp hcmem with rfl
    exact hne
termination_by items.length
decreasing_by simp only [List.length_drop]; omega

theorem chunk_of_length_le {T : Type} (items : List T) (size : Nat)
    (hle : items.length ≤ size) : chunk items size = [items] := by
  rw [chunk_eq, if_neg (by omega)]

theorem chunk_nil {T : Type} (size : Nat) : chunk ([] : List T) size = [[]] := by
  rw [chunk_eq, if_neg (by simp)]

theorem chunkFuel_mono {T : Type} :
    ∀ (fuel fuel2 : Nat) (items : List T) (size : Nat) (r : List (List T)),
      fuel ≤ fuel2 → chunkFuel fuel items size = some r →
      chunkFuel fuel2 items size = some r := by
  intro fuel
  induction fuel with
  | zero =>
      intro _ _ _ _ _ hsome
      simp [chunkFuel] at hsome
  | succ f ih =>
      intro fuel2 items size r hle hsome
      cases fuel2 with
      | zero => omega
      | succ f2 =>
          simp only [chunkFuel] at hsome ⊢
          by_cases hc : size < items.length
          · rw [if_pos hc] at hsome ⊢
            cases hr : chunkFuel f (items.drop size) size with
            | none => rw [hr] at hsome; simp at hsome
            | some cs =>
                rw [ih f2 _ _ _ (by omega) hr]
                rw [hr] at hsome
                simpa using hsome
          · rw [if_neg hc] at hsome ⊢
            exact hsome

theorem chunkFuel_chunk {T : Type} (items : List T) (size : Nat) (h : 0 < size) :
    chunkFuel (items.length + 1) items size = some (chunk items size) := by
  by_cases hc : size < items.length
  · have ih := chunkFuel_chunk (items.drop size) size h
    have hmono : chunkFuel items.length (items.drop size) size
        = some (chunk (items.drop size) size) := by
      refine chunkFuel_mono _ _ _ _ _ ?_ ih
      simp only [List.length_drop]
      omega
    simp only [chunkFuel, if_pos hc]
    rw [hmono]
    rw [chunk_eq items size, if_pos ⟨h, hc⟩]
    rfl
  · simp only [chunkFuel, if_neg hc]
    rw [chunk_of_length_le items size (by omega)]
termination_by items.length
decreasing_by simp only [List.length_drop]; omega

theorem chunkFuel_zero_size_none :
    ∀ fuel : Nat, chunkFuel fuel [(0 : Nat)] 0 = none := by
  intro fuel
  induction fuel with
  | zero => rfl
  | succ f ih =>
      simp only [chunkFuel, List.length_cons, List.length_nil, Nat.zero_lt_one,
        if_pos, List.drop_zero]
      rw [ih]
      rfl

/-! Helper lemmas about the Go map model. -/

theorem mapFind_nil {K V : Type} [DecidableEq K] (j : K) :
    mapFind ([] : List (K × V)) j = none := rfl

theorem mapFind_cons {K V : Type} [DecidableEq K] (k2 : K) (v2 : V)
    (rest : List (K × V)) (j : K) :
    mapFind ((k2, v2) :: rest) j = if k2 = j then some v2 else mapFind rest j := rfl

theorem mapFind_mapInsert {K V : Type} [DecidableEq K]
    (m : List (K × V)) (k j : K) (v : V) :
    mapFind (mapInsert m k v) j = if k = j then some v else mapFind m j := by
  induction m with
  | nil => by_cases h : k = j <;> simp [mapInsert, mapFind_cons, mapFind_nil, h]
  | cons kv rest ih =>
      obtain ⟨k2, v2⟩ := kv
      simp only [mapInsert]
      by_cases h2 : k2 = k
      · subst h2
        rw [if_pos rfl]
        by_cases hj : k2 = j <;> simp [mapFind_cons, hj]
      · rw [if_neg h2]
        rw [mapFind_cons, mapFind_cons, ih]
        by_cases hj : k2 = j <;> by_cases hkj : k = j <;> simp_all

theorem mapFind_foldl_insert {K V : Type} [DecidableEq K]
    (f : K → V) (ks : List K) (m : List (K × V)) (j : K) :
    mapFind (ks.foldl (fun acc k => mapInsert acc k (f k)) m) j
      = if j ∈ ks then some (f j) else mapFind m j := by
  induction ks generalizing m with
  | nil => simp
  | cons k rest ih =>
      simp only [List.foldl_cons]
      rw [ih]
      by_cases hr : j ∈ rest
      · simp [hr, List.mem_cons]
      · rw [if_neg hr, mapFind_mapInsert]
        by_cases hkj : k = j
        · subst hkj
          simp [List.mem_cons]
        · have hjk : ¬(j = k) := fun hh => hkj hh.symm
          simp [List.mem_cons, hr, hjk, hkj]

theorem mapMerge_cons {K V : Type} [DecidableEq K] (m : List (K × V))
    (kv : K × V) (rest : List (K × V)) :
    mapMerge m (kv :: rest) = mapMerge (mapInsert m kv.1 kv.2) rest := rfl

theorem mapFind_mapMerge_none {K V : Type} [DecidableEq K]
    (m other : List (K × V)) (j : K)
    (hm : mapFind m j = none) (ho : mapFind other j = none) :
    mapFind (mapMerge m other) j = none := by
  induction other generalizing m with
  | nil => simpa [mapMerge] using hm
  | cons kv rest ih =>
      obtain ⟨k2, v2⟩ := kv
      rw [mapFind_cons] at ho
      have hk2 : ¬(k2 = j) := by
        intro hh
        rw [if_pos hh] at ho
        exact Option.noConfusion ho
      rw [if_neg hk2] at ho
      rw [mapMerge_cons]
      refine ih (mapInsert m k2 v2) ?_ ho
      rw [mapFind_mapInsert, if_neg hk2]
      exact hm

/-! Helper lemmas about the select loop model. -/

theorem runLoop_error_of_mem {K V E : Type} [DecidableEq K]
    (trace : List (Except E (List (K × V)))) (acc : List (K × V))
    (h : ∃ e, Except.error e ∈ trace) :
    ∃ e, (runLoop trace acc).2 = some e := by
  induction trace generalizing acc with
  | nil =>
      obtain ⟨e, he⟩ := h
      simp at he
  | cons x rest ih =>
      obtain ⟨e, he⟩ := h
      cases x with
      | ok m =>
          refine ih (mapMerge acc m) ⟨e, ?_⟩
          rcases List.mem_cons.mp he with h1 | h1
          · exact absurd h1 (by simp)
          · exact h1
      | error e2 => exact ⟨e2, rfl⟩

theorem runLoop_find_none {K V E : Type} [DecidableEq K]
    (trace : List (Except E (List (K × V)))) (acc : List (K × V)) (j : K)
    (hacc : mapFind acc j = none)
    (h : ∀ m, Except.ok m ∈ trace → mapFind m j = none) :
    mapFind (runLoop trace acc).1 j = none := by
  induction trace generalizing acc with
  | nil => simpa [runLoop] using hacc
  | cons x rest ih =>
      cases x with
      | ok m =>
          simp only [runLoop]
          refine ih (mapMerge acc m) ?_ ?_
          · exact mapFind_mapMerge_none _ _ _ hacc (h m (List.mem_cons_self _ _))
          · intro m2 hm2
            exact h m2 (List.mem_cons_of_mem _ hm2)
      | error e => simpa [runLoop] using hacc

/-! Helper lemmas about the pending-key set model. -/

theorem mem_keyInsert {K : Type} [DecidableEq K] (s : List K) (k j : K) :
    j ∈ keyInsert s k ↔ j ∈ s ∨ j = k := by
  unfold keyInsert
  by_cases h : k ∈ s
  · rw [if_pos h]
    constructor
    · exact Or.inl
    · rintro (h1 | rfl)
      · exact h1
      · exact h
  · rw [if_neg h]
    simp

theorem nodup_keyInsert {K : Type} [DecidableEq K] (s : List K) (k : K)
    (h : s.Nodup) : (keyInsert s k).Nodup := by
  unfold keyInsert
  by_cases hk : k ∈ s
  · rw [if_pos hk]; exact h
  · rw [if_neg hk]
    simp [List.nodup_append, h, hk]

theorem mem_foldl_keyInsert {K : Type} [DecidableEq K] (ks : List K) (s : List K) (j : K) :
    j ∈ ks.foldl keyInsert s ↔ j ∈ s ∨ j ∈ ks := by
  induction ks generalizing s with
  | nil => simp
  | cons k rest ih =>
      simp only [List.foldl_cons]
      rw [ih, mem_keyInsert, List.mem_cons]
      tauto

theorem nodup_foldl_keyInsert {K : Type} [DecidableEq K] (ks s : List K)
    (h : s.Nodup) : (ks.foldl keyInsert s).Nodup := by
  induction ks generalizing s with
  | nil => simpa
  | cons k rest ih => exact ih _ (nodup_keyInsert _ _ h)

theorem foldl_addKeys_keys {K V E : Type} [DecidableEq K]
    (subs : List (List K)) (bat : Batch K V E) :
    (subs.foldl addKeys bat).keys = subs.flatten.foldl keyInsert bat.keys := by
  induction subs generalizing bat with
  | nil => simp
  | cons s rest ih =>
      simp only [List.foldl_cons, List.flatten_cons]
      rw [ih, List.foldl_append]
      rfl

theorem foldl_addKeys_fields {K V E : Type} [DecidableEq K]
    (subs : List (List K)) (bat : Batch K V E) :
    (subs.foldl addKeys bat).batchSize = bat.batchSize
    ∧ (subs.foldl addKeys bat).fn = bat.fn
    ∧ (subs.foldl addKeys bat).err = bat.err
    ∧ (subs.foldl addKeys bat).results = bat.results := by
  induction subs generalizing bat with
  | nil => exact ⟨rfl, rfl, rfl, rfl⟩
  | cons s rest ih => exact ih (addKeys bat s)

/-! Claim theorems. -/

/-- C5: for every list of keys and every positive chunk size, the
partition produced by `chunk` is contiguous and lossless — concatenating
the returned chunks in order yields exactly the input list, so no element
is omitted and none is duplicated across chunks. -/
theorem chunk_partition_lossless {T : Type} (items : List T) (size : Nat)
    (h : 0 < size) : (chunk items size).flatten = items :=
  chunk_flatten_eq items size h

/-- Witness for C5 at a concrete input. -/
theorem chunk_partition_lossless_witness :
    (chunk [1, 2, 3, 4, 5] 2).flatten = [1, 2, 3, 4, 5] :=
  chunk_partition_lossless [1, 2, 3, 4, 5] 2 (by decide)

/-- C6: with a positive batch size limit, every chunk produced from a
non-empty key list has length between 1 and the limit inclusive; a
non-empty key list no longer than the limit yields exactly one chunk; and
an empty key list yields exactly one chunk, which is empty — so `run`
invokes the fetch function exactly once, with zero keys, for a window
with no keys. -/
theorem chunk_size_bounds (size : Nat) (h : 0 < size) :
    (∀ (T : Type) (items : List T), items ≠ [] →
        ∀ c ∈ chunk items size, 1 ≤ c.length ∧ c.length ≤ size)
    ∧ (∀ (T : Type) (items : List T), items ≠ [] → items.length ≤ size →
        chunk items size = [items])
    ∧ (∀ (T : Type), chunk ([] : List T) size = [[]])
    ∧ (∀ (K V E : Type) (bat : Batch K V E), bat.keys = [] →
        bat.batchSize = size →
        dispatchOutcomes bat = [bat.fn []] ∧ fetchInvocations bat = 1) := by
  refine ⟨?_, ?_, ?_, ?_⟩
  · intro T items hne c hc
    refine ⟨?_, chunk_mem_length_le items size h c hc⟩
    have hnil := chunk_mem_ne_nil items size h hne c hc
    have hlen : 0 < c.length := List.length_pos.mpr hnil
    omega
  · intro T items _ hle
    exact chunk_of_length_le items size hle
  · intro T
    exact chunk_nil size
  · intro K V E bat hkeys hsize
    constructor
    · unfold dispatchOutcomes
      rw [hkeys, hsize, chunk_nil]
      rfl
    · unfold fetchInvocations
      rw [hkeys, hsize, chunk_nil]
      rfl

/-- Witness for C6 at a concrete input. -/
theorem chunk_size_bounds_witness :
    chunk [1, 2, 3] 4 = [[1, 2, 3]] :=
  (chunk_size_bounds 4 (by decide)).2.1 Nat [1, 2, 3] (by decide) (by decide)

/-- C9: the Go `chunk` loop — modelled exactly, iteration by iteration,
by `chunkFuel` — terminates on every input list whenever the size is
positive: fuel `items.length + 1` always suffices and produces the value
of the total model `chunk`.  Positivity is necessary: with size 0 and a
non-empty list no amount of fuel finishes, because the loop guard
`size < len(items)` stays true while the loop removes zero elements per
iteration. -/
theorem chunk_termination :
    (∀ (T : Type) (items : List T) (size : Nat), 0 < size →
        chunkFuel (items.length + 1) items size = some (chunk items size))
    ∧ (∀ fuel : Nat, chunkFuel fuel [(0 : Nat)] 0 = none) :=
  ⟨fun _ items size h => chunkFuel_chunk items size h, chunkFuel_zero_size_none⟩

/-- Witness for C9 at a concrete input. -/
theorem chunk_termination_witness :
    chunkFuel 4 [1, 2, 3] 2 = some (chunk [1, 2, 3] 2) :=
  chunk_termination.1 Nat [1, 2, 3] 2 (by decide)

/-- C10: for every fetch function, `New` returns a Loader carrying
BatchSize 1000 and Delay 5 milliseconds (5000000 nanoseconds) and no
current batch, together with a nil error; the error result is always
nil, so construction can never fail. -/
theorem New_always_succeeds {K V E : Type}
    (fn : List K → Except E (List (K × V))) :
    (New fn).2 = none
    ∧ (New fn).1.BatchSize = 1000
    ∧ (New fn).1.Delay = 5 * 1000000
    ∧ (New fn).1.fn = fn
    ∧ (New fn).1.currentBatch = none :=
  ⟨rfl, rfl, rfl, rfl, rfl⟩

/-- Concrete fetch function used for claim C1: echo each key with its
successor. -/
def c1Fn : List Nat → Except Nat (List (Nat × Nat)) :=
  fun ks => Except.ok (ks.map (fun k => (k, k + 1)))

/-- C1 counterexample: calling LoadMany with zero keys on a fresh Loader
does create an accumulator — the acquire section (src/main.go lines
154-164) never inspects the caller's keys — and the resolution of that
window invokes the fetch function once, with an empty key list, so the
fetch operation is invoked on behalf of that call. -/
theorem loadMany_empty_creates_window :
    (loadManyAcquire (New c1Fn).1).2.2 = true
    ∧ fetchInvocations (addKeys (loadManyAcquire (New c1Fn).1).2.1 ([] : List Nat)) = 1
    ∧ dispatchOutcomes (addKeys (loadManyAcquire (New c1Fn).1).2.1 ([] : List Nat))
        = [c1Fn []] :=
  ⟨rfl, rfl, rfl⟩

/-- C1 amended: LoadMany with zero keys (modelled for a solo caller)
returns an empty mapping, and a nil error whenever the fetch of the
window's single empty chunk succeeds; however, when no batch is current
the call does create an accumulator, and the window's fetch operation is
invoked exactly once, with zero keys. -/
theorem loadMany_empty_amended {K V E : Type} [DecidableEq K] [Inhabited V]
    (l : Loader K V E) (h : l.currentBatch = none)
    (m : List (K × V)) (hfn : l.fn [] = Except.ok m) :
    loadManySolo l [] = ([], none)
    ∧ (loadManyAcquire l).2.2 = true
    ∧ fetchInvocations (addKeys (loadManyAcquire l).2.1 []) = 1 := by
  refine ⟨?_, ?_, ?_⟩
  · simp [loadManySolo, soloWindow, resolveInOrder, resolve, dispatchOutcomes,
      addKeys, loadManyAcquire, h, chunk_nil, hfn, runLoop, projectResults]
  · simp [loadManyAcquire, h]
  · simp [fetchInvocations, addKeys, loadManyAcquire, h, chunk_nil]

/-- Witness for the amended C1 at a concrete input. -/
theorem loadMany_empty_amended_witness :
    loadManySolo (New c1Fn).1 ([] : List Nat) = ([], none)
    ∧ (loadManyAcquire (New c1Fn).1).2.2 = true
    ∧ fetchInvocations (addKeys (loadManyAcquire (New c1Fn).1).2.1 []) = 1 :=
  loadMany_empty_amended (New c1Fn).1 rfl [] rfl

/-- Concrete fetch function used for claim C3: always succeed with an
empty result map. -/
def c3Fn : List Nat → Except Nat (List (Nat × Nat)) :=
  fun _ => Except.ok []

/-- C3 counterexample: create a window on a fresh Loader, whose Delay is
5000000 ns, then mutate Delay to 0; the sleep executed by run reads
loader.Delay at execution time (src/main.go line 194) and thus sleeps 0,
not the 5000000 ns the Loader held when the accumulator was created — so
mutating Loader.Delay after the accumulator is created does change the
sleep duration used for that in-flight window. -/
theorem delay_not_captured :
    (loadManyAcquire (New c3Fn).1).2.2 = true
    ∧ (New c3Fn).1.Delay = 5000000
    ∧ runSleepDuration { (loadManyAcquire (New c3Fn).1).1 with Delay := 0 } = 0
    ∧ runSleepDuration { (loadManyAcquire (New c3Fn).1).1 with Delay := 0 }
        ≠ (New c3Fn).1.Delay :=
  ⟨rfl, rfl, rfl, by decide⟩

/-- C3 amended: the batch size limit is captured into the accumulator at
creation (src/main.go line 157) and chunking uses the captured value
(line 210), so mutating Loader.BatchSize after the accumulator is created
does not change the chunk size of the in-flight window; the window delay,
by contrast, is not captured — run reads loader.Delay when it executes
time.Sleep (line 194), so the sleep duration of the in-flight window is
whatever Delay the Loader holds at that moment. -/
theorem batchSize_captured_delay_not {K V E : Type} [DecidableEq K]
    (l : Loader K V E) (newSize newDelay : Nat) (h : l.currentBatch = none) :
    ((loadManyAcquire l).2.1.batchSize = l.BatchSize)
    ∧ (∀ ks : List K,
        dispatchOutcomes (addKeys (loadManyAcquire l).2.1 ks)
          = (chunk (ks.foldl keyInsert []) l.BatchSize).map l.fn)
    ∧ runSleepDuration
        { (loadManyAcquire l).1 with BatchSize := newSize, Delay := newDelay }
        = newDelay := by
  refine ⟨?_, ?_, ?_⟩
  · simp [loadManyAcquire, h]
  · intro ks
    simp [loadManyAcquire, h, dispatchOutcomes, addKeys]
  · simp [loadManyAcquire, h, runSleepDuration]

/-- Witness for the amended C3 at a concrete input. -/
theorem batchSize_captured_delay_not_witness :
    dispatchOutcomes (addKeys (loadManyAcquire (New c3Fn).1).2.1 [1, 2])
      = (chunk ([1, 2].foldl keyInsert []) 1000).map (New c3Fn).1.fn
    ∧ runSleepDuration
        { (loadManyAcquire (New c3Fn).1).1 with BatchSize := 7, Delay := 9 } = 9 :=
  ⟨(batchSize_captured_delay_not (New c3Fn).1 7 9 rfl).2.1 [1, 2],
   (batchSize_captured_delay_not (New c3Fn).1 7 9 rfl).2.2⟩

/-- Concrete fetch function used for claim C4: fail on the chunk [1],
succeed on any other chunk. -/
def c4Fn : List Nat → Except Nat (List (Nat × Nat)) :=
  fun c => if c = [1] then Except.error 7 else Except.ok [(2, 5)]

/-- Concrete batch used for claim C4: two single-key chunks, the first of
which fails. -/
def c4Bat : Batch Nat Nat Nat :=
  { batchSize := 1, fn := c4Fn, keys := [1, 2] }

/-- C4 counterexample: a window with two chunks whose first outcome
received is an error; the select loop consumes only that one outcome, so
the other chunk goroutine is left blocked forever on its unbuffered
channel send — one outstanding chunk task is not drained and leaks,
contradicting the claim that no task blocks forever. -/
theorem run_error_leaks_straggler :
    blockedSenders (dispatchOutcomes c4Bat) = 1
    ∧ (dispatchOutcomes c4Bat).length = 2
    ∧ consumedCount (dispatchOutcomes c4Bat) = 1 := by
  decide

/-- C4 amended: when the select loop receives some successful chunk
outcomes followed by an error, the error is recorded as the accumulator's
terminal error and the loop stops as soon as the error is observed —
exactly the successful outcomes received before the error are merged into
the results, outcomes after it are discarded and never merged — but the
outstanding chunk tasks are not drained: every one of the goroutines
whose send was not yet received (one per remaining outcome) stays blocked
forever on its unbuffered channel. -/
theorem run_first_error_stops {K V E : Type} [DecidableEq K]
    (oks : List (List (K × V))) (e : E)
    (post : List (Except E (List (K × V)))) (acc : List (K × V)) :
    runLoop (oks.map Except.ok ++ Except.error e :: post) acc
        = (oks.foldl mapMerge acc, some e)
    ∧ consumedCount (oks.map Except.ok ++ Except.error e :: post)
        = oks.length + 1
    ∧ blockedSenders (oks.map Except.ok ++ Except.error e :: post)
        = post.length := by
  induction oks generalizing acc with
  | nil =>
      refine ⟨rfl, rfl, ?_⟩
      simp [blockedSenders, consumedCount]
  | cons m rest ih =>
      obtain ⟨h1, h2, h3⟩ := ih (mapMerge acc m)
      have hrl : runLoop ((m :: rest).map Except.ok ++ Except.error e :: post) acc
          = runLoop (rest.map Except.ok ++ Except.error e :: post) (mapMerge acc m) := rfl
      have hcc : consumedCount ((m :: rest).map Except.ok ++ Except.error e :: post)
          = consumedCount (rest.map Except.ok ++ Except.error e :: post) + 1 := rfl
      refine ⟨?_, ?_, ?_⟩
      · rw [hrl, h1, List.foldl_cons]
      · rw [hcc, h2, List.length_cons]
      · unfold blockedSenders
        rw [hcc, h2]
        simp only [List.length_append, List.length_map, List.length_cons]
        omega

/-- C2: for a window in which the fetch operation fails on at least one
chunk, resolution records a terminal error (the first one the select loop
receives), and every caller of Load or LoadMany waiting on that window —
whatever keys it requested, including keys served by chunks whose fetches
succeeded — receives that same error, and the result mapping returned to
each such caller is empty. -/
theorem window_error_all_or_nothing {K V E : Type} [DecidableEq K] [Inhabited V]
    (bat : Batch K V E) (trace : List (Except E (List (K × V))))
    (hperm : trace.Perm (dispatchOutcomes bat))
    (hfail : ∃ c ∈ chunk bat.keys bat.batchSize, ∃ e, bat.fn c = Except.error e) :
    ∃ e, (resolve bat trace).err = some e
      ∧ (∀ ks : List K, projectResults (resolve bat trace) ks = ([], some e))
      ∧ (∀ key : K, loadFromBatch (resolve bat trace) key = (default, some e)) := by
  obtain ⟨c, hc, e, he⟩ := hfail
  have hmem : Except.error e ∈ dispatchOutcomes bat := by
    unfold dispatchOutcomes
    exact he ▸ List.mem_map_of_mem bat.fn hc
  have hmem2 : Except.error e ∈ trace := hperm.mem_iff.mpr hmem
  obtain ⟨e2, he2⟩ := runLoop_error_of_mem trace bat.results ⟨e, hmem2⟩
  have he2b : (resolve bat trace).err = some e2 := he2
  have hproj : ∀ ks : List K, projectResults (resolve bat trace) ks = ([], some e2) := by
    intro ks
    unfold projectResults
    rw [he2b]
  refine ⟨e2, he2b, hproj, ?_⟩
  intro key
  unfold loadFromBatch
  rw [hproj [key]]

/-- Concrete fetch function used for claim C2: fail on the chunk [1],
succeed on any other chunk. -/
def c2Fn : List Nat → Except Nat (List (Nat × Nat)) :=
  fun c => if c = [1] then Except.error 7 else Except.ok [(2, 5)]

/-- Concrete batch used for claim C2: two single-key chunks; the fetch of
chunk [1] fails while the fetch of chunk [2] succeeds. -/
def c2Bat : Batch Nat Nat Nat :=
  { batchSize := 1, fn := c2Fn, keys := [1, 2] }

/-- Witness for C2 at a concrete input: the caller who requested key 2 —
a key served by the successful chunk — still receives the error 7 with an
empty mapping, and so does Load of key 2. -/
theorem window_error_all_or_nothing_witness :
    projectResults (resolve c2Bat (dispatchOutcomes c2Bat)) [2] = ([], some 7)
    ∧ loadFromBatch (resolve c2Bat (dispatchOutcomes c2Bat)) 2 = (default, some 7) := by
  obtain ⟨e, he, hall, hload⟩ := window_error_all_or_nothing c2Bat (dispatchOutcomes c2Bat)
      (List.Perm.refl _) ⟨[1], by decide, 7, rfl⟩
  have hcomp : (resolve c2Bat (dispatchOutcomes c2Bat)).err = some 7 := by decide
  have he7 : (7 : Nat) = e := Option.some.inj (hcomp.symm.trans he)
  subst he7
  exact ⟨hall [2], hload 2⟩

/-- C7: every key submitted to a window while its accumulator is current
— however many times and by however many callers (`subs` lists each
caller's submitted keys) — is a member of the accumulator's pending-key
set exactly once, appears exactly once in the key list dispatched across
that window's chunks, and any two callers that requested it read the
identical value out of the resolved window. -/
theorem window_dedup {K V E : Type} [DecidableEq K] [Inhabited V]
    (subs : List (List K)) (size : Nat)
    (fn : List K → Except E (List (K × V))) (k : K)
    (hsize : 0 < size) (hk : k ∈ subs.flatten) :
    (subs.foldl addKeys ({ batchSize := size, fn := fn } : Batch K V E)).keys.count k = 1
    ∧ ((chunk (subs.foldl addKeys ({ batchSize := size, fn := fn } : Batch K V E)).keys
          size).flatten).count k = 1
    ∧ (∀ ks1 ks2 : List K, k ∈ ks1 → k ∈ ks2 →
        (resolveInOrder (subs.foldl addKeys
            ({ batchSize := size, fn := fn } : Batch K V E))).err = none →
        mapFind (projectResults (resolveInOrder (subs.foldl addKeys
            ({ batchSize := size, fn := fn } : Batch K V E))) ks1).1 k
          = some (mapRead (resolveInOrder (subs.foldl addKeys
            ({ batchSize := size, fn := fn } : Batch K V E))).results k)
        ∧ mapFind (projectResults (resolveInOrder (subs.foldl addKeys
            ({ batchSize := size, fn := fn } : Batch K V E))) ks2).1 k
          = some (mapRead (resolveInOrder (subs.foldl addKeys
            ({ batchSize := size, fn := fn } : Batch K V E))).results k)) := by
  have hkeys : (subs.foldl addKeys ({ batchSize := size, fn := fn } : Batch K V E)).keys
      = subs.flatten.foldl keyInsert [] := foldl_addKeys_keys subs _
  have hnodup : (subs.flatten.foldl keyInsert ([] : List K)).Nodup :=
    nodup_foldl_keyInsert _ _ List.nodup_nil
  have hmem : k ∈ subs.flatten.foldl keyInsert [] :=
    (mem_foldl_keyInsert _ _ _).mpr (Or.inr hk)
  have hcount : (subs.flatten.foldl keyInsert ([] : List K)).count k = 1 :=
    List.count_eq_one_of_mem hnodup hmem
  refine ⟨?_, ?_, ?_⟩
  · rw [hkeys]
    exact hcount
  · rw [hkeys, chunk_flatten_eq _ _ hsize]
    exact hcount
  · intro ks1 ks2 h1 h2 herr
    constructor
    · unfold projectResults
      rw [herr]
      rw [mapFind_foldl_insert, if_pos h1]
    · unfold projectResults
      rw [herr]
      rw [mapFind_foldl_insert, if_pos h2]

/-- Concrete fetch function used for claim C7: echo each key with ten
times its value. -/
def c7Fn : List Nat → Except Nat (List (Nat × Nat)) :=
  fun ks => Except.ok (ks.map (fun k => (k, k * 10)))

/-- Witness for C7 at a concrete input: key 2 is submitted by two
different callers, lands in the pending set and in the dispatched chunks
once, and both callers read the identical value. -/
theorem window_dedup_witness :
    (List.foldl addKeys ({ batchSize := 2, fn := c7Fn } : Batch Nat Nat Nat)
        [[1, 2], [2, 3]]).keys.count 2 = 1
    ∧ mapFind (projectResults (resolveInOrder (List.foldl addKeys
        ({ batchSize := 2, fn := c7Fn } : Batch Nat Nat Nat) [[1, 2], [2, 3]])) [2]).1 2
      = some (mapRead (resolveInOrder (List.foldl addKeys
        ({ batchSize := 2, fn := c7Fn } : Batch Nat Nat Nat) [[1, 2], [2, 3]])).results 2) := by
  obtain ⟨h1, h2, h3⟩ := window_dedup [[1, 2], [2, 3]] 2 c7Fn 2 (by decide) (by decide)
  exact ⟨h1, (h3 [2] [2, 3] (by decide) (by decide) (by decide)).1⟩

/-- C8: when a window resolves without error, the mapping LoadMany
returns carries an entry for every key the caller requested; a requested
key absent from every chunk's fetch result is mapped to the zero value of
the value type, and Load of such a key returns the zero value with a nil
error — never an error. -/
theorem loadMany_missing_key_zero {K V E : Type} [DecidableEq K] [Inhabited V]
    (bat : Batch K V E) (ks : List K)
    (hres : bat.results = [])
    (herr : (resolveInOrder bat).err = none) :
    ((projectResults (resolveInOrder bat) ks).2 = none)
    ∧ (∀ k ∈ ks, mapFind (projectResults (resolveInOrder bat) ks).1 k
        = some (mapRead (resolveInOrder bat).results k))
    ∧ (∀ key : K, (∀ m, Except.ok m ∈ dispatchOutcomes bat → mapFind m key = none) →
        mapFind (resolveInOrder bat).results key = none)
    ∧ (∀ k ∈ ks, (∀ m, Except.ok m ∈ dispatchOutcomes bat → mapFind m k = none) →
        mapFind (projectResults (resolveInOrder bat) ks).1 k = some (default : V))
    ∧ (∀ key : K, mapFind (resolveInOrder bat).results key = none →
        loadFromBatch (resolveInOrder bat) key = (default, none)) := by
  have habsent : ∀ key : K,
      (∀ m, Except.ok m ∈ dispatchOutcomes bat → mapFind m key = none) →
      mapFind (resolveInOrder bat).results key = none := by
    intro key hnone
    show mapFind (runLoop (dispatchOutcomes bat) bat.results).1 key = none
    refine runLoop_find_none _ _ _ ?_ hnone
    rw [hres]
    exact mapFind_nil key
  have hentry : ∀ k ∈ ks, mapFind (projectResults (resolveInOrder bat) ks).1 k
      = some (mapRead (resolveInOrder bat).results k) := by
    intro k hkmem
    unfold projectResults
    rw [herr]
    rw [mapFind_foldl_insert, if_pos hkmem]
  refine ⟨?_, hentry, habsent, ?_, ?_⟩
  · unfold projectResults
    rw [herr]
  · intro k hkmem hnone
    rw [hentry k hkmem]
    unfold mapRead
    rw [habsent k hnone]
    rfl
  · intro key hnone
    have hp : projectResults (resolveInOrder bat) [key]
        = ([(key, mapRead (resolveInOrder bat).results key)], none) := by
      unfold projectResults
      rw [herr]
      rfl
    unfold loadFromBatch
    rw [hp]
    show (mapRead [(key, mapRead (resolveInOrder bat).results key)] key, none)
        = ((default : V), none)
    have hone : mapRead [(key, mapRead (resolveInOrder bat).results key)] key
        = mapRead (resolveInOrder bat).results key := by
      unfold mapRead
      rw [mapFind_cons, if_pos rfl]
      rfl
    rw [hone]
    unfold mapRead
    rw [hnone]
    rfl

/-- Concrete fetch function used for claim C8: always return a map
holding only key 1. -/
def c8Fn : List Nat → Except Nat (List (Nat × Nat)) :=
  fun _ => Except.ok [(1, 11)]

/-- Concrete batch used for claim C8: keys 1 and 9 are requested but the
fetch result never contains key 9. -/
def c8Bat : Batch Nat Nat Nat :=
  { batchSize := 2, fn := c8Fn, keys := [1, 9] }

/-- Witness for C8 at a concrete input: the requested key 9, absent from
the fetch result, is mapped to the zero value 0 with no error. -/
theorem loadMany_missing_key_zero_witness :
    mapFind (projectResults (resolveInOrder c8Bat) [1, 9]).1 9 = some (0 : Nat)
    ∧ loadFromBatch (resolveInOrder c8Bat) 9 = ((0 : Nat), none) := by
  obtain ⟨p1, p2, p3, p4, p5⟩ := loadMany_missing_key_zero c8Bat [1, 9] rfl (by decide)
  have habs : ∀ m, Except.ok m ∈ dispatchOutcomes c8Bat → mapFind m 9 = none := by
    intro m hm
    have hd : dispatchOutcomes c8Bat = [Except.ok [(1, 11)]] := rfl
    rw [hd] at hm
    have hm2 : m = [(1, 11)] := Except.ok.inj (List.mem_singleton.mp hm)
    subst hm2
    decide
  exact ⟨p4 9 (by decide) habs, p5 9 (p3 9 habs)⟩

end Dataloader
